import Mathlib

/-!
Shallow embedding of `src/memtable.rs` (the memtable of a leveldb-style
storage engine): the entry codec (`build_memtable_key` / `parse_memtable_key`),
the search-key builder (`LookupKey`), `MemTable::get`, and the
tombstone-filtering `MemtableIterator`.

Byte buffers (`Vec<u8>`) are modelled as `List Nat`; `u64` arithmetic is `Nat`
with explicit `% 2 ^ 64` where the source can wrap.  The external collaborators
that are not part of this source tree (the `types` module with `ValueType` and
`Status`, the `skipmap` module with the sorted container and its iterator, and
the `integer_encoding` crate) are modelled from the spec, as marked on each
definition.
-/

/-- Modelled from the spec: the `types` module defining the mutation-type
enumeration is not part of this source.  The spec fixes `TypeValue`'s numeric
code at 1 (via the pinned byte layout) and requires `Value`'s code to be
numerically less than `Deletion`'s; we use 2 for `TypeDeletion`. -/
inductive ValueType where
  | TypeValue
  | TypeDeletion
deriving DecidableEq

/-- Numeric code of a mutation type (the `t as u64` cast in the source). -/
def ValueType.code : ValueType → Nat
  | .TypeValue => 1
  | .TypeDeletion => 2

/-- Modelled from the spec: the generic error/status taxonomy lives in the
absent `types` module; the spec only requires "a not-found error signal
distinguishable from other error kinds", so we carry a few other kinds. -/
inductive Status where
  | NotFound : String → Status
  | Corruption : String → Status
  | InvalidArgument : String → Status
deriving DecidableEq

/-- Sequence numbers are `u64` in the source. -/
abbrev SequenceNumber := Nat

/-- Modelled from the spec / the `integer_encoding` crate: self-delimiting
LEB128 varint encoding (7 value bits per byte, high bit marks continuation),
smallest number of bytes needed.  `encode_var` in the source. -/
def varintEncode (n : Nat) : List Nat :=
  if h : n < 128 then [n]
  else (n % 128 + 128) :: varintEncode (n / 128)
termination_by n
decreasing_by
  exact Nat.div_lt_self (by omega) (by omega)

/-- Modelled from the spec / the `integer_encoding` crate: varint decoding,
returning the decoded value and the number of bytes consumed (`decode_var`). -/
def varintDecode : List Nat → Nat × Nat
  | [] => (0, 0)
  | b :: rest =>
    if b < 128 then (b, 1)
    else
      let p := varintDecode rest
      (b % 128 + 128 * p.1, p.2 + 1)

/-- Modelled from the `integer_encoding` crate: fixed-width little-endian
encoding of the low `w` bytes of `n` (`encode_fixed` with `w = 8` for `u64`). -/
def fixedEncode : Nat → Nat → List Nat
  | 0, _ => []
  | w + 1, n => n % 256 :: fixedEncode w (n / 256)

/-- Modelled from the `integer_encoding` crate: little-endian decoding of a
byte list (`decode_fixed` on an 8-byte slice). -/
def fixedDecodeLE : List Nat → Nat
  | [] => 0
  | b :: rest => b + 256 * fixedDecodeLE rest

/-- The tag packed into every encoded entry: `seq << 8 | (t as u64)` computed
on `u64` (the shift wraps modulo `2 ^ 64`). -/
def mkTag (seq : SequenceNumber) (t : ValueType) : Nat :=
  (seq <<< 8) % 2 ^ 64 ||| t.code

/-- Modelled from the spec: the default comparator of the absent `skipmap`
module is byte-wise lexicographic comparison of the full buffers
(`StandardComparator`, i.e. Rust's `Ord` on byte slices). -/
def byteCmp : List Nat → List Nat → Ordering
  | [], [] => .eq
  | [], _ :: _ => .lt
  | _ :: _, [] => .gt
  | a :: as, b :: bs =>
    if a < b then .lt
    else if b < a then .gt
    else byteCmp as bs

/-- Modelled from the spec: insertion into the sorted container, keeping the
entry list ordered by `byteCmp` (the skip map stores only the encoded keys;
the payload inserted by the memtable is always empty and is dropped here). -/
def insertSorted (k : List Nat) : List (List Nat) → List (List Nat)
  | [] => [k]
  | x :: xs =>
    match byteCmp k x with
    | .gt => x :: insertSorted k xs
    | _ => k :: x :: xs

/-- Modelled from the spec: seek-to-lower-bound of the sorted container — the
suffix of the entry list starting at the first entry `≥ target`. -/
def seekGE (target : List Nat) : List (List Nat) → List (List Nat)
  | [] => []
  | x :: xs => if byteCmp x target = .lt then seekGE target xs else x :: xs

/-- Modelled from the spec: the skip-map iterator.  `entries` is the full
sorted contents (seek restarts from the front), `rest` the entries after the
cursor, `cur` the entry under the cursor (`none` when unpositioned or
exhausted). -/
structure SkipMapIter where
  entries : List (List Nat)
  rest : List (List Nat)
  cur : Option (List Nat)
deriving DecidableEq

/-- Modelled from the spec: the raw iterator's `valid()`. -/
def SkipMapIter.valid (it : SkipMapIter) : Bool :=
  it.cur.isSome

/-- Modelled from the spec: the raw iterator's `current()`, a (key, payload)
pair; the payload is always empty for memtable entries. -/
def SkipMapIter.current (it : SkipMapIter) : List Nat × List Nat :=
  (it.cur.getD [], [])

/-- Modelled from the spec: the raw iterator's `next()` — advance one entry
and return it, or become exhausted. -/
def SkipMapIter.step (it : SkipMapIter) : Option (List Nat) × SkipMapIter :=
  match it.rest with
  | [] => (none, ⟨it.entries, [], none⟩)
  | x :: xs => (some x, ⟨it.entries, xs, some x⟩)

/-- Modelled from the spec: the raw iterator's `seek(target)` — position the
cursor at the first entry `≥ target`, invalid when every entry is smaller. -/
def SkipMapIter.seek (it : SkipMapIter) (target : List Nat) : SkipMapIter :=
  match seekGE target it.entries with
  | [] => ⟨it.entries, [], none⟩
  | x :: xs => ⟨it.entries, xs, some x⟩

/-- `LookupKey` from the source: the encoded search key and the byte offset of
the user key inside it. -/
structure LookupKey where
  key : List Nat
  key_offset : Nat
deriving DecidableEq

/-- `LookupKey::new(k, s)`: the source fills one buffer with the varint key
length, the key bytes and the fixed 8-byte tag `s << 8 | TypeValue`; the
incremental `resize`/`encode`/`extend` construction flattens to this
concatenation, and `key_offset` is the byte width of the length varint
(`k.len().required_space()`). -/
def LookupKey.new (k : List Nat) (s : SequenceNumber) : LookupKey :=
  ⟨varintEncode k.length ++ k ++ fixedEncode 8 (mkTag s ValueType.TypeValue),
   (varintEncode k.length).length⟩

/-- `LookupKey::memtable_key()`: the whole buffer. -/
def LookupKey.memtable_key (lk : LookupKey) : List Nat :=
  lk.key

/-- `LookupKey::user_key()`: the source returns `key[key_offset..]`, i.e. the
whole suffix of the buffer from the key offset to the end. -/
def LookupKey.user_key (lk : LookupKey) : List Nat :=
  lk.key.drop lk.key_offset

/-- `MemTable::build_memtable_key(key, value, t, seq)`: the source fills one
buffer with `[key_size: varint, key_data, flags: u64, value_size: varint,
value_data]`; the incremental construction flattens to this concatenation
(the final `assert_eq!(i, buf.len())` holds by construction). -/
def build_memtable_key (key value : List Nat) (t : ValueType) (seq : SequenceNumber) :
    List Nat :=
  varintEncode key.length ++ key ++ fixedEncode 8 (mkTag seq t) ++
    varintEncode value.length ++ value

/-- `MemTable::parse_memtable_key(mkey)`, returning
`(keylen, key, tag, vallen, val)`.  `mkey[i..i+keylen]` is `(drop i).take
keylen`; the tag is decoded from the 8 bytes after the key when any bytes
remain there, and `val` is the whole remainder after the value-length
varint. -/
def parse_memtable_key (mkey : List Nat) : Nat × List Nat × Nat × Nat × List Nat :=
  let kl := varintDecode mkey
  let keylen := kl.1
  let i0 := kl.2
  let key := (mkey.drop i0).take keylen
  let i1 := i0 + keylen
  if i1 < mkey.length then
    let tag := fixedDecodeLE ((mkey.drop i1).take 8)
    let i2 := i1 + 8
    let vl := varintDecode (mkey.drop i2)
    let i3 := i2 + vl.2
    (keylen, key, tag, vl.1, mkey.drop i3)
  else
    (keylen, key, 0, 0, [])

/-- `MemTable`: owns the sorted container (modelled as its sorted key list). -/
structure MemTable where
  map : List (List Nat)
deriving DecidableEq

/-- `MemTable::new()`. -/
def MemTable.new : MemTable :=
  ⟨[]⟩

/-- `MemTable::add(seq, t, key, value)`: encode and insert (the skip-map
payload is the empty vector). -/
def MemTable.add (mt : MemTable) (seq : SequenceNumber) (t : ValueType)
    (key value : List Nat) : MemTable :=
  ⟨insertSorted (build_memtable_key key value t seq) mt.map⟩

/-- A fresh raw iterator over the memtable's container (`self.map.iter()`). -/
def MemTable.rawIter (mt : MemTable) : SkipMapIter :=
  ⟨mt.map, mt.map, none⟩

/-- `MemTable::get(key)`: seek the container to the encoded search key; when
the landing entry exists and its parsed user key equals the search key's,
return its value for a `Value` tag and a not-found status for anything else;
otherwise not-found. -/
def MemTable.get (mt : MemTable) (key : LookupKey) : Except Status (List Nat) :=
  let iter := mt.rawIter.seek key.memtable_key
  if iter.valid then
    let foundkey := (SkipMapIter.current iter).1
    let pl := parse_memtable_key key.memtable_key
    let pf := parse_memtable_key foundkey
    if byteCmp pl.2.1 pf.2.1 = .eq then
      if pf.2.2.1 % 256 = ValueType.TypeValue.code then
        .ok pf.2.2.2.2
      else
        .error (Status.NotFound "")
    else
      .error (Status.NotFound "not found")
  else
    .error (Status.NotFound "not found")

/-- `MemtableIterator`: the filtering iterator wraps the raw skip-map
iterator (the table borrow carries no data we need). -/
structure MemtableIterator where
  skipmapiter : SkipMapIter
deriving DecidableEq

/-- `MemTable::iter()`. -/
def MemTable.iter (mt : MemTable) : MemtableIterator :=
  ⟨mt.rawIter⟩

/-- `MemtableIterator::next()`: loop over the raw iterator; decode each entry;
return the first whose tag's low byte is the `Value` code, skipping the rest;
`none` when the container is exhausted first.  The raw `step` is inlined as a
match on `rest` so the recursion is visibly decreasing. -/
def MemtableIterator.next : MemtableIterator → Option (List Nat × List Nat) × MemtableIterator
  | ⟨⟨entries, [], _⟩⟩ => (none, ⟨⟨entries, [], none⟩⟩)
  | ⟨⟨entries, fk :: xs, _⟩⟩ =>
    let p := parse_memtable_key fk
    if p.2.2.1 % 256 = ValueType.TypeValue.code then
      (some (p.2.1, p.2.2.2.2), ⟨⟨entries, xs, some fk⟩⟩)
    else
      MemtableIterator.next ⟨⟨entries, xs, some fk⟩⟩
termination_by it => it.skipmapiter.rest.length

/-- `MemtableIterator::valid()`. -/
def MemtableIterator.valid (it : MemtableIterator) : Bool :=
  it.skipmapiter.valid

/-- `MemtableIterator::current()`: the source asserts validity, decodes the
entry under the cursor and returns the (key, value) pair when the tag's low
byte is the `Value` code, and panics ("should not happen") otherwise.  Both
aborts (assertion failure and panic) are modelled as `none`. -/
def MemtableIterator.current (it : MemtableIterator) : Option (List Nat × List Nat) :=
  if it.valid then
    let p := parse_memtable_key (SkipMapIter.current it.skipmapiter).1
    if p.2.2.1 % 256 = ValueType.TypeValue.code then
      some (p.2.1, p.2.2.2.2)
    else
      none
  else
    none

/-- `MemtableIterator::seek(to)`: seek the raw iterator to the encoded search
key for `(to, 0)`. -/
def MemtableIterator.seek (it : MemtableIterator) (target : List Nat) : MemtableIterator :=
  ⟨it.skipmapiter.seek (LookupKey.new target 0).memtable_key⟩

/-! ## Arithmetic and codec lemmas -/

theorem two_pow_mul_lor_add (k : Nat) :
    ∀ a c : Nat, c < 2 ^ k → 2 ^ k * a ||| c = 2 ^ k * a + c := by
  induction k with
  | zero =>
    intro a c hc
    have hc0 : c = 0 := by omega
    subst hc0
    simp
  | succ k ih =>
    intro a c hc
    have hsplit : c = Nat.bit c.bodd c.div2 := (Nat.bit_decomp c).symm
    have ha : 2 ^ (k + 1) * a = Nat.bit false (2 ^ k * a) := by
      simp only [Nat.bit_val, Bool.toNat_false, Nat.pow_succ]
      ring
    have hd : c.div2 < 2 ^ k := by
      rw [Nat.div2_val]
      have h2 : 2 ^ (k + 1) = 2 * 2 ^ k := by rw [Nat.pow_succ]; ring
      omega
    rw [ha, hsplit, Nat.lor_bit, ih _ _ hd]
    have hb : c = 2 * c.div2 + c.bodd.toNat := by
      rw [← Nat.bit_val, Nat.bit_decomp]
    have h2 : 2 ^ (k + 1) = 2 * 2 ^ k := by rw [Nat.pow_succ]; ring
    simp only [Nat.bit_val, Bool.false_or, Bool.toNat_false]
    omega

theorem ValueType.code_lt (t : ValueType) : t.code < 256 := by
  cases t <;> simp [ValueType.code]

theorem mkTag_eq (s : Nat) (t : ValueType) :
    mkTag s t = s % 2 ^ 56 * 256 + t.code := by
  have h1 : s <<< 8 % 2 ^ 64 = 2 ^ 8 * (s % 2 ^ 56) := by
    rw [Nat.shiftLeft_eq]
    have h64 : (2 : Nat) ^ 64 = 2 ^ 56 * 2 ^ 8 := by norm_num
    rw [h64, Nat.mul_mod_mul_right]
    ring
  unfold mkTag
  rw [h1, two_pow_mul_lor_add 8 _ _ (by have := t.code_lt; omega)]
  ring

theorem mkTag_lt (s : Nat) (t : ValueType) : mkTag s t < 256 ^ 8 := by
  rw [mkTag_eq]
  have h1 : s % 2 ^ 56 < 2 ^ 56 := Nat.mod_lt _ (by norm_num)
  have h2 := t.code_lt
  have h3 : (256 : Nat) ^ 8 = 2 ^ 56 * 256 := by norm_num
  omega

theorem varintEncode_ne_nil (n : Nat) : varintEncode n ≠ [] := by
  rw [varintEncode]
  split <;> simp

theorem varintDecode_encode_append (n : Nat) (rest : List Nat) :
    varintDecode (varintEncode n ++ rest) = (n, (varintEncode n).length) := by
  induction n using Nat.strong_induction_on with
  | _ n ih =>
    rw [varintEncode]
    split
    · rename_i h
      simp [varintDecode, h]
    · rename_i h
      have hb : ¬ n % 128 + 128 < 128 := by omega
      have hrec := ih (n / 128) (Nat.div_lt_self (by omega) (by omega))
      simp only [List.cons_append, varintDecode, hb, if_false, List.append_eq, hrec,
        List.length_cons, Prod.mk.injEq]
      constructor
      · omega
      · trivial

theorem fixedEncode_length (w : Nat) : ∀ n : Nat, (fixedEncode w n).length = w := by
  induction w with
  | zero => intro n; rfl
  | succ w ih => intro n; simp [fixedEncode, ih]

theorem fixedDecodeLE_fixedEncode (w : Nat) :
    ∀ n : Nat, n < 256 ^ w → fixedDecodeLE (fixedEncode w n) = n := by
  induction w with
  | zero =>
    intro n hn
    have : n = 0 := by
      have : (256 : Nat) ^ 0 = 1 := by norm_num
      omega
    subst this
    rfl
  | succ w ih =>
    intro n hn
    have hpow : (256 : Nat) ^ (w + 1) = 256 ^ w * 256 := by rw [Nat.pow_succ]
    have hdiv : n / 256 < 256 ^ w := by omega
    simp only [fixedEncode, fixedDecodeLE, ih _ hdiv]
    omega

theorem byteCmp_eq_iff (a : List Nat) : ∀ b, byteCmp a b = .eq ↔ a = b := by
  induction a with
  | nil => intro b; cases b <;> simp [byteCmp]
  | cons x xs ih =>
    intro b
    cases b with
    | nil => simp [byteCmp]
    | cons y ys =>
      simp only [byteCmp]
      split
      · rename_i h
        have hne : x ≠ y := by omega
        simp [hne]
      · split
        · rename_i h1 h2
          have hne : x ≠ y := by omega
          simp [hne]
        · rename_i h1 h2
          have hxy : x = y := by omega
          simp [hxy, ih]

theorem byteCmp_append_same (p : List Nat) :
    ∀ a b, byteCmp (p ++ a) (p ++ b) = byteCmp a b := by
  induction p with
  | nil => intro a b; rfl
  | cons x xs ih =>
    intro a b
    simp [byteCmp, ih]

theorem byteCmp_nil_left (b : List Nat) (h : b ≠ []) : byteCmp [] b = .lt := by
  cases b with
  | nil => exact absurd rfl h
  | cons y ys => rfl

theorem byteCmp_self_append (a b : List Nat) (h : b ≠ []) : byteCmp a (a ++ b) = .lt := by
  have h1 := byteCmp_append_same a [] b
  rw [List.append_nil] at h1
  rw [h1, byteCmp_nil_left b h]

theorem parse_shape (k f8 w : List Nat) (nv : Nat) (h8 : f8.length = 8) :
    parse_memtable_key (varintEncode k.length ++ k ++ f8 ++ varintEncode nv ++ w) =
      (k.length, k, fixedDecodeLE f8, nv, w) := by
  have hL : varintEncode k.length ++ k ++ f8 ++ varintEncode nv ++ w =
      varintEncode k.length ++ (k ++ (f8 ++ (varintEncode nv ++ w))) := by
    simp [List.append_assoc]
  rw [hL]
  have h1 := varintDecode_encode_append k.length (k ++ (f8 ++ (varintEncode nv ++ w)))
  have hd1 : (varintEncode k.length ++ (k ++ (f8 ++ (varintEncode nv ++ w)))).drop
      (varintEncode k.length).length = k ++ (f8 ++ (varintEncode nv ++ w)) :=
    List.drop_left _ _
  have ht1 : (k ++ (f8 ++ (varintEncode nv ++ w))).take k.length = k := List.take_left _ _
  have hd2 : (varintEncode k.length ++ (k ++ (f8 ++ (varintEncode nv ++ w)))).drop
      ((varintEncode k.length).length + k.length) = f8 ++ (varintEncode nv ++ w) := by
    rw [show varintEncode k.length ++ (k ++ (f8 ++ (varintEncode nv ++ w))) =
      (varintEncode k.length ++ k) ++ (f8 ++ (varintEncode nv ++ w)) by simp [List.append_assoc]]
    exact List.drop_left' (by simp)
  have ht2 : (f8 ++ (varintEncode nv ++ w)).take 8 = f8 := List.take_left' h8
  have h2 := varintDecode_encode_append nv w
  have hd3 : (varintEncode k.length ++ (k ++ (f8 ++ (varintEncode nv ++ w)))).drop
      ((varintEncode k.length).length + k.length + 8) = varintEncode nv ++ w := by
    rw [show varintEncode k.length ++ (k ++ (f8 ++ (varintEncode nv ++ w))) =
      ((varintEncode k.length ++ k) ++ f8) ++ (varintEncode nv ++ w) by simp [List.append_assoc]]
    exact List.drop_left' (by simp [h8]; omega)
  have hd4 : (varintEncode k.length ++ (k ++ (f8 ++ (varintEncode nv ++ w)))).drop
      ((varintEncode k.length).length + k.length + 8 + (varintEncode nv).length) = w := by
    rw [show varintEncode k.length ++ (k ++ (f8 ++ (varintEncode nv ++ w))) =
      (((varintEncode k.length ++ k) ++ f8) ++ varintEncode nv) ++ w by simp [List.append_assoc]]
    exact List.drop_left' (by simp [h8]; omega)
  have hcond : (varintEncode k.length).length + k.length <
      (varintEncode k.length ++ (k ++ (f8 ++ (varintEncode nv ++ w)))).length := by
    simp [h8]
  simp only [parse_memtable_key, h1, hd1, ht1, hd2, ht2, h2, hd3, hd4, hcond, if_true]

theorem parse_lookup_shape (k f8 : List Nat) (h8 : f8.length = 8) :
    parse_memtable_key (varintEncode k.length ++ k ++ f8) =
      (k.length, k, fixedDecodeLE f8, 0, []) := by
  have hL : varintEncode k.length ++ k ++ f8 = varintEncode k.length ++ (k ++ f8) := by
    simp [List.append_assoc]
  rw [hL]
  have h1 := varintDecode_encode_append k.length (k ++ f8)
  have hd1 : (varintEncode k.length ++ (k ++ f8)).drop (varintEncode k.length).length =
      k ++ f8 := List.drop_left _ _
  have ht1 : (k ++ f8).take k.length = k := List.take_left _ _
  have hd2 : (varintEncode k.length ++ (k ++ f8)).drop
      ((varintEncode k.length).length + k.length) = f8 := by
    rw [show varintEncode k.length ++ (k ++ f8) = (varintEncode k.length ++ k) ++ f8 by
      simp [List.append_assoc]]
    exact List.drop_left' (by simp)
  have ht2 : f8.take 8 = f8 := by rw [← h8]; exact List.take_length f8
  have hd3 : (varintEncode k.length ++ (k ++ f8)).drop
      ((varintEncode k.length).length + k.length + 8) = [] := by
    apply List.drop_eq_nil_of_le
    simp [h8]
    omega
  have hcond : (varintEncode k.length).length + k.length <
      (varintEncode k.length ++ (k ++ f8)).length := by
    simp [h8]
  simp only [parse_memtable_key, h1, hd1, ht1, hd2, ht2, hd3, hcond, if_true, varintDecode]

theorem byteCmp_gt_nil (b : List Nat) (h : b ≠ []) : byteCmp b [] = .gt := by
  cases b with
  | nil => exact absurd rfl h
  | cons y ys => rfl

theorem byteCmp_append_gt (a b : List Nat) (h : b ≠ []) : byteCmp (a ++ b) a = .gt := by
  have h1 := byteCmp_append_same a b []
  rw [List.append_nil] at h1
  rw [h1, byteCmp_gt_nil b h]

theorem fixedEncode_8_small (s c : Nat) (hs : s < 256) (hc : c < 256) :
    fixedEncode 8 (s * 256 + c) = [c, s, 0, 0, 0, 0, 0, 0] := by
  simp only [fixedEncode, List.cons.injEq, and_true]
  omega

theorem parse_build_append (k v : List Nat) (t : ValueType) (s : SequenceNumber)
    (extra : List Nat) :
    parse_memtable_key (build_memtable_key k v t s ++ extra) =
      (k.length, k, mkTag s t, v.length, v ++ extra) := by
  have h := parse_shape k (fixedEncode 8 (mkTag s t)) (v ++ extra) v.length
    (fixedEncode_length 8 _)
  rw [show build_memtable_key k v t s ++ extra =
    varintEncode k.length ++ k ++ fixedEncode 8 (mkTag s t) ++ varintEncode v.length ++
      (v ++ extra) by simp [build_memtable_key, List.append_assoc]]
  rw [h, fixedDecodeLE_fixedEncode 8 _ (mkTag_lt s t)]

theorem parse_lookup_key (k : List Nat) (s : SequenceNumber) :
    parse_memtable_key (LookupKey.new k s).memtable_key =
      (k.length, k, mkTag s ValueType.TypeValue, 0, []) := by
  have h := parse_lookup_shape k (fixedEncode 8 (mkTag s ValueType.TypeValue))
    (fixedEncode_length 8 _)
  rw [fixedDecodeLE_fixedEncode 8 _ (mkTag_lt _ _)] at h
  exact h

/-- Claim C2 (confirmed): parsing the buffer produced by
`build_memtable_key(key, value, t, s)` yields exactly
`(key.len(), key, (s << 8) | t, value.len(), value)`, the tag computed in
`u64` arithmetic. -/
theorem claim_c2_roundtrip (k v : List Nat) (t : ValueType) (s : SequenceNumber) :
    parse_memtable_key (build_memtable_key k v t s) =
      (k.length, k, s <<< 8 % 2 ^ 64 ||| t.code, v.length, v) := by
  have h := parse_build_append k v t s []
  rw [List.append_nil, List.append_nil] at h
  exact h

/-- Claim C10 (confirmed): for a buffer extending an encoder-produced entry,
`parse_memtable_key` returns as the value field all bytes from the end of the
value-length varint to the end of the buffer; the decoded value-length field
is returned unchanged and never bounds the value slice, so they agree only
when nothing follows the encoder's output. -/
theorem claim_c10_value_to_end (k v : List Nat) (t : ValueType) (s : SequenceNumber)
    (extra : List Nat) :
    parse_memtable_key (build_memtable_key k v t s ++ extra) =
      (k.length, k, mkTag s t, v.length, v ++ extra) ∧
    ((parse_memtable_key (build_memtable_key k v t s ++ extra)).2.2.2.2).length =
      v.length + extra.length := by
  refine ⟨parse_build_append k v t s extra, ?_⟩
  rw [parse_build_append k v t s extra]
  simp

/-- Claim C4 (confirmed): encoding key="abc", value="123", type `Value`,
sequence 123 produces exactly the pinned byte sequence. -/
theorem claim_c4_exact_bytes :
    build_memtable_key [97, 98, 99] [49, 50, 51] ValueType.TypeValue 123 =
      [3, 97, 98, 99, 1, 123, 0, 0, 0, 0, 0, 0, 3, 49, 50, 51] := by
  simp [build_memtable_key, varintEncode, mkTag_eq, ValueType.code, fixedEncode]

/-- Claim C8 (confirmed): `LookupKey::new(k, s)` produces exactly
`[varint of k.len()][k][8-byte fixed tag (s << 8) | Value]`: the buffer is the
concatenation of the three fields, the tag field is 8 bytes, its low byte is
always the `Value` code and its remaining bytes hold the sequence number. -/
theorem claim_c8_lookup_layout (k : List Nat) (s : SequenceNumber) :
    (LookupKey.new k s).key =
      varintEncode k.length ++ k ++ fixedEncode 8 (mkTag s ValueType.TypeValue) ∧
    (fixedEncode 8 (mkTag s ValueType.TypeValue)).length = 8 ∧
    mkTag s ValueType.TypeValue % 256 = ValueType.TypeValue.code ∧
    mkTag s ValueType.TypeValue / 256 = s % 2 ^ 56 := by
  refine ⟨rfl, fixedEncode_length 8 _, ?_, ?_⟩ <;>
    (rw [mkTag_eq]; simp [ValueType.code]; omega)

/-- Claim C9 (code_bug): `user_key()` is the suffix of the lookup buffer from
`key_offset` to the end, which includes the 8 tag bytes: at k="abc", s=123 it
returns the key bytes followed by the tag bytes, not the original key. -/
theorem claim_c9_user_key_includes_tag :
    (LookupKey.new [97, 98, 99] 123).user_key =
      [97, 98, 99, 1, 123, 0, 0, 0, 0, 0, 0] ∧
    (LookupKey.new [97, 98, 99] 123).user_key ≠ [97, 98, 99] := by
  constructor <;>
    simp [LookupKey.user_key, LookupKey.new, varintEncode, mkTag_eq, ValueType.code,
      fixedEncode]

/-- Claim C5 counterexample: at k=[], v=[], t=Value, s=1, s'=256 (s' ≥ s) the
search key sorts strictly AFTER the encoded entry: the fixed tag is stored
little-endian, so the byte at index 1 compares sequence numbers by their low
byte only. -/
theorem claim_c5_cex :
    byteCmp (LookupKey.new [] 1).key
      (build_memtable_key [] [] ValueType.TypeValue 256) = Ordering.gt ∧
    (1 : Nat) ≤ 256 := by
  constructor
  · simp [LookupKey.new, build_memtable_key, varintEncode, mkTag_eq, ValueType.code,
      fixedEncode, byteCmp]
  · omega

/-- Claim C5 (corrected, amended): for sequence numbers below 256 (where the
little-endian tag bytes compare like the numbers), the search key
`LookupKey::new(k, s)` sorts strictly before `build_memtable_key(k, v, t, s')`
whenever s ≤ s', for every value and mutation type. -/
theorem claim_c5_amended (k v : List Nat) (t : ValueType) (s s' : Nat)
    (hss : s ≤ s') (hs' : s' < 256) :
    byteCmp (LookupKey.new k s).key (build_memtable_key k v t s') = Ordering.lt := by
  have hs : s < 256 := by omega
  have hms : mkTag s ValueType.TypeValue = s * 256 + 1 := by
    rw [mkTag_eq, Nat.mod_eq_of_lt (by omega)]
    rfl
  have hms' : mkTag s' t = s' * 256 + t.code := by
    rw [mkTag_eq, Nat.mod_eq_of_lt (by omega)]
  have hfe : fixedEncode 8 (mkTag s ValueType.TypeValue) = [1, s, 0, 0, 0, 0, 0, 0] := by
    rw [hms]
    exact fixedEncode_8_small s 1 hs (by omega)
  have hfe' : fixedEncode 8 (mkTag s' t) = [t.code, s', 0, 0, 0, 0, 0, 0] := by
    rw [hms']
    exact fixedEncode_8_small s' t.code hs' t.code_lt
  have e1 : (LookupKey.new k s).key =
      (varintEncode k.length ++ k) ++ [1, s, 0, 0, 0, 0, 0, 0] := by
    simp [LookupKey.new, List.append_assoc, hfe]
  have e2 : build_memtable_key k v t s' =
      (varintEncode k.length ++ k) ++
        ([t.code, s', 0, 0, 0, 0, 0, 0] ++ (varintEncode v.length ++ v)) := by
    simp [build_memtable_key, List.append_assoc, hfe']
  rw [e1, e2, byteCmp_append_same]
  cases t with
  | TypeDeletion =>
    simp [ValueType.code, byteCmp]
  | TypeValue =>
    simp only [ValueType.code, List.cons_append]
    rcases Nat.lt_or_ge s s' with h | h
    · simp [byteCmp, h, Nat.lt_irrefl]
    · have hse : s = s' := by omega
      subst hse
      have hne : varintEncode v.length ++ v ≠ [] := by
        cases hv : varintEncode v.length with
        | nil => exact absurd hv (varintEncode_ne_nil _)
        | cons a l => simp
      have h1 := byteCmp_self_append [1, s, 0, 0, 0, 0, 0, 0]
        (varintEncode v.length ++ v) hne
      simpa using h1

/-- Witness for claim C5's amended theorem at k=[107], v=[118], t=Value,
s=1, s'=2. -/
theorem claim_c5_witness :
    byteCmp (LookupKey.new [107] 1).key
      (build_memtable_key [107] [118] ValueType.TypeValue 2) = Ordering.lt :=
  claim_c5_amended [107] [118] ValueType.TypeValue 1 2 (by omega) (by omega)

/-- Claim C7 counterexample: on a memtable holding only a `Deletion` entry for
key [107], `seek([107])` positions the cursor on that tombstone (valid is
true), and `current()` then aborts — the source's `panic!("should not
happen")`, modelled as `none`. -/
theorem claim_c7_cex :
    ((MemTable.new.add 1 ValueType.TypeDeletion [107] []).iter.seek [107]).valid = true ∧
    ((MemTable.new.add 1 ValueType.TypeDeletion [107] []).iter.seek [107]).current =
      none := by
  constructor <;>
    simp [MemTable.new, MemTable.add, MemTable.iter, MemTable.rawIter,
      MemtableIterator.seek, MemtableIterator.valid, MemtableIterator.current,
      SkipMapIter.seek, SkipMapIter.valid, SkipMapIter.current, seekGE, insertSorted,
      build_memtable_key, LookupKey.new, LookupKey.memtable_key, varintEncode,
      mkTag_eq, ValueType.code, fixedEncode, byteCmp, parse_memtable_key,
      varintDecode, fixedDecodeLE]

/-- Claim C7 (corrected, amended): whenever the cursor is positioned on an
entry, `valid()` is true and `current()` returns the decoded (user_key, value)
pair when the entry's mutation type is `Value`, and aborts (modelled `none`)
when it is not — which can happen after a `seek` that lands on a tombstone. -/
theorem claim_c7_amended (it : MemtableIterator) (fk : List Nat)
    (h : it.skipmapiter.cur = some fk) :
    it.valid = true ∧
    it.current = (if (parse_memtable_key fk).2.2.1 % 256 = ValueType.TypeValue.code
      then some ((parse_memtable_key fk).2.1, (parse_memtable_key fk).2.2.2.2)
      else none) := by
  obtain ⟨⟨e, r, c⟩⟩ := it
  simp only at h
  subst h
  constructor
  · rfl
  · simp [MemtableIterator.current, MemtableIterator.valid, SkipMapIter.valid,
      SkipMapIter.current]

/-- Witness for claim C7's amended theorem: a cursor positioned on the `Value`
entry for key [107], value [118] at sequence 2. -/
theorem claim_c7_witness :
    MemtableIterator.valid
      ⟨⟨[], [], some [1, 107, 1, 2, 0, 0, 0, 0, 0, 0, 1, 118]⟩⟩ = true ∧
    MemtableIterator.current
      ⟨⟨[], [], some [1, 107, 1, 2, 0, 0, 0, 0, 0, 0, 1, 118]⟩⟩ =
      some ([107], [118]) := by
  have h := claim_c7_amended ⟨⟨[], [], some [1, 107, 1, 2, 0, 0, 0, 0, 0, 0, 1, 118]⟩⟩
    [1, 107, 1, 2, 0, 0, 0, 0, 0, 0, 1, 118] rfl
  refine ⟨h.1, ?_⟩
  rw [h.2]
  decide

/-- Claim C6 (confirmed): `MemtableIterator::next` yields exactly the decoded
(key, value) of the first remaining entry whose tag's mutation type is
`Value`, skipping every entry whose type is not `Value` (tombstones), and
yields nothing when the container runs out first. -/
theorem claim_c6_skips_tombstones (it : MemtableIterator) :
    (it.next).1 =
      (it.skipmapiter.rest.find? fun fk =>
        (parse_memtable_key fk).2.2.1 % 256 == ValueType.TypeValue.code).map
      (fun fk => ((parse_memtable_key fk).2.1, (parse_memtable_key fk).2.2.2.2)) := by
  obtain ⟨⟨e, r, c⟩⟩ := it
  induction r generalizing c with
  | nil => simp [MemtableIterator.next]
  | cons fk xs ih =>
    by_cases hv : (parse_memtable_key fk).2.2.1 % 256 = ValueType.TypeValue.code
    · simp [MemtableIterator.next, hv, List.find?_cons]
    · simp only [MemtableIterator.next, hv, if_false]
      rw [ih (some fk)]
      simp [List.find?_cons, hv]

/-- Claim C3 (confirmed): `get` seeks to the first stored entry at-or-after
the search key; it returns not-found when no such entry exists or the found
entry's decoded user-key bytes differ from the search key's; otherwise it
returns the entry's value bytes when the mutation type is `Value` and
not-found when it is not; and every failure `get` can produce is a `NotFound`
status. -/
theorem claim_c3_get_cases (mt : MemTable) (lk : LookupKey) :
    ((∃ v, mt.get lk = .ok v) ∨ (∃ m, mt.get lk = .error (Status.NotFound m))) ∧
    (match seekGE lk.memtable_key mt.map with
     | [] => mt.get lk = .error (Status.NotFound "not found")
     | fk :: _ =>
       if (parse_memtable_key lk.memtable_key).2.1 = (parse_memtable_key fk).2.1 then
         if (parse_memtable_key fk).2.2.1 % 256 = ValueType.TypeValue.code then
           mt.get lk = .ok (parse_memtable_key fk).2.2.2.2
         else
           mt.get lk = .error (Status.NotFound "")
       else
         mt.get lk = .error (Status.NotFound "not found")) := by
  cases hs : seekGE lk.memtable_key mt.map with
  | nil =>
    have hg : mt.get lk = .error (Status.NotFound "not found") := by
      simp [MemTable.get, MemTable.rawIter, SkipMapIter.seek, hs, SkipMapIter.valid]
    refine ⟨Or.inr ⟨_, hg⟩, ?_⟩
    simp only [hs]
    exact hg
  | cons fk rest =>
    have hg : mt.get lk =
        (if byteCmp (parse_memtable_key lk.memtable_key).2.1
            (parse_memtable_key fk).2.1 = .eq then
          (if (parse_memtable_key fk).2.2.1 % 256 = ValueType.TypeValue.code then
            Except.ok (parse_memtable_key fk).2.2.2.2
          else
            Except.error (Status.NotFound ""))
        else
          Except.error (Status.NotFound "not found")) := by
      simp [MemTable.get, MemTable.rawIter, SkipMapIter.seek, hs, SkipMapIter.valid,
        SkipMapIter.current]
    constructor
    · rw [hg]
      split_ifs with h1 h2
      · exact Or.inl ⟨_, rfl⟩
      · exact Or.inr ⟨_, rfl⟩
      · exact Or.inr ⟨_, rfl⟩
    · simp only [hs]
      split_ifs with h1 h2
      · rw [hg, if_pos ((byteCmp_eq_iff _ _).mpr h1), if_pos h2]
      · rw [hg, if_pos ((byteCmp_eq_iff _ _).mpr h1), if_neg h2]
      · rw [hg, if_neg fun hc => h1 ((byteCmp_eq_iff _ _).mp hc)]

/-- Claim C1 counterexample: (a) with only ("abc","123") added at sequence 120
as `Value`, `get(LookupKey::new("abc", 124))` returns not-found although the
newest entry with sequence ≤ 124 is the live 120 write; (b) with only
([107],[118]) added at sequence 2, `get(LookupKey::new([107], 1))` returns the
value written at sequence 2 > 1. -/
theorem claim_c1_cex :
    (MemTable.new.add 120 ValueType.TypeValue [97, 98, 99] [49, 50, 51]).get
      (LookupKey.new [97, 98, 99] 124) = .error (Status.NotFound "not found") ∧
    (MemTable.new.add 2 ValueType.TypeValue [107] [118]).get
      (LookupKey.new [107] 1) = .ok [118] := by
  constructor <;>
    simp [MemTable.get, MemTable.add, MemTable.new, MemTable.rawIter,
      build_memtable_key, LookupKey.new, LookupKey.memtable_key, varintEncode,
      mkTag_eq, ValueType.code, fixedEncode, insertSorted, byteCmp, seekGE,
      SkipMapIter.seek, SkipMapIter.valid, SkipMapIter.current, parse_memtable_key,
      varintDecode, fixedDecodeLE]

/-- Claim C1 (corrected, amended): for a memtable holding exactly one entry,
added as (s', Value, k, v) with s, s' < 256, `get(LookupKey::new(k, s))`
returns v precisely when s ≤ s' and not-found when s' < s: the single forward
seek finds the oldest version at-or-after the requested sequence number, not
the newest version at-or-before it. -/
theorem claim_c1_amended (k v : List Nat) (s s' : Nat) (hs : s < 256) (hs' : s' < 256) :
    (MemTable.new.add s' ValueType.TypeValue k v).get (LookupKey.new k s) =
      (if s ≤ s' then .ok v else .error (Status.NotFound "not found")) := by
  have hms : mkTag s ValueType.TypeValue = s * 256 + 1 := by
    rw [mkTag_eq, Nat.mod_eq_of_lt (by omega)]
    rfl
  have hms' : mkTag s' ValueType.TypeValue = s' * 256 + 1 := by
    rw [mkTag_eq, Nat.mod_eq_of_lt (by omega)]
    rfl
  have hfe : fixedEncode 8 (mkTag s ValueType.TypeValue) = [1, s, 0, 0, 0, 0, 0, 0] := by
    rw [hms]
    exact fixedEncode_8_small s 1 hs (by omega)
  have hfe' : fixedEncode 8 (mkTag s' ValueType.TypeValue) =
      [1, s', 0, 0, 0, 0, 0, 0] := by
    rw [hms']
    exact fixedEncode_8_small s' 1 hs' (by omega)
  have hL : (LookupKey.new k s).memtable_key =
      (varintEncode k.length ++ k) ++ [1, s, 0, 0, 0, 0, 0, 0] := by
    simp [LookupKey.new, LookupKey.memtable_key, List.append_assoc, hfe]
  have hE : build_memtable_key k v ValueType.TypeValue s' =
      (varintEncode k.length ++ k) ++
        ([1, s', 0, 0, 0, 0, 0, 0] ++ (varintEncode v.length ++ v)) := by
    simp [build_memtable_key, List.append_assoc, hfe']
  have hmap : (MemTable.new.add s' ValueType.TypeValue k v).map =
      [build_memtable_key k v ValueType.TypeValue s'] := rfl
  by_cases hss : s ≤ s'
  · -- the entry is at-or-after the search key: the seek lands on it
    have hcmp : byteCmp (build_memtable_key k v ValueType.TypeValue s')
        (LookupKey.new k s).memtable_key = .gt := by
      rw [hE, hL, byteCmp_append_same]
      rcases Nat.lt_or_ge s s' with h | h
      · simp [byteCmp, Nat.lt_irrefl, h, Nat.lt_asymm h]
      · have hse : s = s' := by omega
        subst hse
        have hne : varintEncode v.length ++ v ≠ [] := by
          cases hv : varintEncode v.length with
          | nil => exact absurd hv (varintEncode_ne_nil _)
          | cons a l => simp
        have h1 := byteCmp_append_gt [1, s, 0, 0, 0, 0, 0, 0]
          (varintEncode v.length ++ v) hne
        simpa using h1
    have hseek : seekGE (LookupKey.new k s).memtable_key
        [build_memtable_key k v ValueType.TypeValue s'] =
        [build_memtable_key k v ValueType.TypeValue s'] := by
      simp [seekGE, hcmp]
    have hparseE : parse_memtable_key (build_memtable_key k v ValueType.TypeValue s') =
        (k.length, k, mkTag s' ValueType.TypeValue, v.length, v) := by
      have h := parse_build_append k v ValueType.TypeValue s' []
      rw [List.append_nil, List.append_nil] at h
      exact h
    have htag : mkTag s' ValueType.TypeValue % 256 = ValueType.TypeValue.code := by
      rw [hms']
      simp [ValueType.code]
      omega
    simp [MemTable.get, MemTable.rawIter, hmap, SkipMapIter.seek, hseek,
      SkipMapIter.valid, SkipMapIter.current, parse_lookup_key, hparseE,
      (byteCmp_eq_iff k k).mpr rfl, htag, hss]
  · -- s' < s: the only entry sorts strictly before the search key
    have hcmp : byteCmp (build_memtable_key k v ValueType.TypeValue s')
        (LookupKey.new k s).memtable_key = .lt := by
      rw [hE, hL, byteCmp_append_same]
      have h : s' < s := by omega
      simp [byteCmp, Nat.lt_irrefl, h]
    have hseek : seekGE (LookupKey.new k s).memtable_key
        [build_memtable_key k v ValueType.TypeValue s'] = [] := by
      simp [seekGE, hcmp]
    simp [MemTable.get, MemTable.rawIter, hmap, SkipMapIter.seek, hseek,
      SkipMapIter.valid, hss]

/-- Witness for claim C1's amended theorem: a single entry ([97],[98]) at
sequence 5, looked up at sequence 4, is found. -/
theorem claim_c1_witness :
    (MemTable.new.add 5 ValueType.TypeValue [97] [98]).get (LookupKey.new [97] 4) =
      .ok [98] := by
  have h := claim_c1_amended [97] [98] 4 5 (by omega) (by omega)
  rw [h, if_pos (by omega)]
